import Mathlib

/-!
Verification development for the edu_platform repository.

The repository couples a Next.js frontend (user/task management, vector
search UI, AI tutoring flow) with a RAG ingestion and retrieval core.
The frontend sources are embedded directly from the TypeScript files.
The ingestion/retrieval core (boundary detection, chunk building,
indexing, retrieval ranking, RAG orchestration) lives in backend Python
modules that are not part of the available sources; those components are
modelled from the specification, as marked on each definition.

Machine numbers that matter here are integers (scores, offsets, counts)
and exact rationals (relevance scores); no floating point is modelled.
-/

/-! ## Tutoring flow score recording

Embedded from `src/frontend/pages/task/[id].tsx`, `handleNextQuestion`:

    let score = Number(res.data.score) || 0;
    if (hintVisible && score > 0) {
      score = Math.floor(score / 2);
    }
    setScoreSum(prev => prev + score);
    setLastScore(score);

Scores are modelled as integers.  For a positive integer `score`,
`Math.floor(score / 2)` is integer division by two, which is `score / 2`
on `Int` (truncating division agrees with floor on nonnegative inputs).
-/

def recordedScore (hintVisible : Bool) (score : Int) : Int :=
  if hintVisible = true ∧ 0 < score then score / 2 else score

def nextScoreSum (scoreSum : Int) (hintVisible : Bool) (score : Int) : Int :=
  scoreSum + recordedScore hintVisible score

/-! ## Search-and-filter hook

Embedded from `src/frontend/components/ui/useSearchAndFilter.tsx`.
JavaScript values flowing through the hook are modelled by `JSVal`;
numbers are modelled as integers (`Option Int` stands for a number that
may be NaN after conversion).  `Date` comparison in the `date` filter
branch is runtime behaviour external to this embedding and is passed in
as an explicit comparison function.
-/

inductive JSPrim where
  | pNull
  | pUndef
  | pStr (s : String)
  | pNum (n : Int)
  | pBool (b : Bool)
  deriving DecidableEq, Repr

inductive JSVal where
  | vNull
  | vUndef
  | vStr (s : String)
  | vNum (n : Int)
  | vBool (b : Bool)
  | vArr (elems : List JSPrim)
  deriving DecidableEq, Repr

/-- View of a value as a primitive; arrays have no primitive view (JS
compares arrays by reference, never equal to a fresh element). -/
def toPrim : JSVal → Option JSPrim
  | .vNull => some .pNull
  | .vUndef => some .pUndef
  | .vStr s => some (.pStr s)
  | .vNum n => some (.pNum n)
  | .vBool b => some (.pBool b)
  | .vArr _ => none

/-- JavaScript truthiness test, negated: `!value` on a `JSVal`. -/
def isFalsy : JSVal → Bool
  | .vNull => true
  | .vUndef => true
  | .vStr s => s == ""
  | .vNum n => n == 0
  | .vBool b => !b
  | .vArr _ => false

/-- Conversion `String(value)` restricted to the non-array constructors;
array elements are converted shallowly (nested arrays print empty, a
harmless simplification since no claim touches array stringification). -/
def jsPrimToString : JSPrim → String
  | .pNull => "null"
  | .pUndef => "undefined"
  | .pStr s => s
  | .pNum n => toString n
  | .pBool true => "true"
  | .pBool false => "false"

/-- Conversion `String(value)`. -/
def jsToString : JSVal → String
  | .vNull => "null"
  | .vUndef => "undefined"
  | .vStr s => s
  | .vNum n => toString n
  | .vBool true => "true"
  | .vBool false => "false"
  | .vArr es => String.intercalate "," (es.map jsPrimToString)

/-- Conversion `Number(value)`; `none` stands for NaN.  Non-integral
numeric strings are outside the integer model and map to `none`. -/
def jsToNumber : JSVal → Option Int
  | .vNull => some 0
  | .vUndef => none
  | .vStr s => if s.trim == "" then some 0 else s.trim.toInt?
  | .vNum n => some n
  | .vBool true => some 1
  | .vBool false => some 0
  | .vArr _ => none

/-- The JavaScript `hay.includes(needle)` substring test. -/
def strIncludes (hay needle : String) : Bool :=
  decide (needle.toList <:+: hay.toList)

inductive FilterType where
  | text
  | select
  | boolean
  | date
  | number
  | multiselect
  deriving DecidableEq, Repr

/-- `FilterOption` from the hook (the `options` list for select inputs is
presentation-only and omitted). -/
structure FilterOption where
  key : String
  label : String
  ftype : FilterType
  deriving DecidableEq, Repr

/-- A data row: field lookup, as `item[field]` on a loosely typed object. -/
def Item : Type := String → JSVal

/-- The per-field search test inside the `result.filter` of the search
phase of `useSearchAndFilter`. -/
def searchMatches (caseSensitive : Bool) (searchFields : List String)
    (term : String) (item : Item) : Bool :=
  searchFields.any fun field =>
    let fieldValue := item field
    if fieldValue == JSVal.vNull || fieldValue == JSVal.vUndef then false
    else
      let stringValue :=
        if caseSensitive then jsToString fieldValue
        else (jsToString fieldValue).toLower
      strIncludes stringValue (if caseSensitive then term else term.toLower)

/-- The search phase: `if (search.debouncedSearchTerm) { result = result.filter(...) }`.
An empty term (falsy string) leaves the data unchanged. -/
def applySearch (caseSensitive : Bool) (searchFields : List String)
    (term : String) (data : List Item) : List Item :=
  if term == "" then data
  else data.filter (searchMatches caseSensitive searchFields term)

/-- `useSearch` returns the debounced term only when it reaches
`minSearchLength`, otherwise the empty string. -/
def searchEffectiveTerm (minSearchLength : Nat) (term : String) : String :=
  if minSearchLength ≤ term.length then term else ""

/-- One `Object.entries(filter.filters).every` step: does `item` pass the
filter entry `(filterKey, filterValue)`?  Mirrors the guard
`if (!filterValue && filterValue !== false && filterValue !== 0) return true;`
and the `switch (filterOption.type)`. -/
def filterPasses (dateEq : JSVal → JSVal → Bool)
    (filterOpts : List FilterOption) (item : Item)
    (entry : String × JSVal) : Bool :=
  let filterKey := entry.1
  let filterValue := entry.2
  if isFalsy filterValue && !(filterValue == JSVal.vBool false)
      && !(filterValue == JSVal.vNum 0) then true
  else
    let itemValue := item filterKey
    match filterOpts.find? (fun opt => opt.key == filterKey) with
      | none => true
      | some opt =>
        match opt.ftype with
        | .text =>
            strIncludes (jsToString itemValue).toLower
              (jsToString filterValue).toLower
        | .select => itemValue == filterValue
        | .multiselect =>
            match filterValue with
            | .vArr vs =>
                vs.isEmpty ||
                  (match toPrim itemValue with
                   | some p => vs.contains p
                   | none => false)
            | _ => true
        | .boolean => itemValue == filterValue
        | .number =>
            match jsToNumber itemValue, jsToNumber filterValue with
            | some a, some b => a == b
            | _, _ => false
        | .date => dateEq itemValue filterValue

/-- `filteredData` of `useSearchAndFilter`: search phase then filter
phase (`result.filter(item => Object.entries(filter.filters).every(...))`). -/
def filteredData (dateEq : JSVal → JSVal → Bool) (data : List Item)
    (searchFields : List String) (caseSensitive : Bool)
    (minSearchLength : Nat) (filterOpts : List FilterOption)
    (searchTerm : String) (filters : List (String × JSVal)) : List Item :=
  let term := searchEffectiveTerm minSearchLength searchTerm
  (applySearch caseSensitive searchFields term data).filter
    fun item => filters.all (filterPasses dateEq filterOpts item)

/-- `resultCount: filteredData.length` from the hook return value. -/
def resultCount (dateEq : JSVal → JSVal → Bool) (data : List Item)
    (searchFields : List String) (caseSensitive : Bool)
    (minSearchLength : Nat) (filterOpts : List FilterOption)
    (searchTerm : String) (filters : List (String × JSVal)) : Nat :=
  (filteredData dateEq data searchFields caseSensitive minSearchLength
    filterOpts searchTerm filters).length

/-! ### Theorems for C9 and C10 -/

lemma selectGuardFalse (v : JSVal) (h1 : v ≠ JSVal.vNull)
    (h2 : v ≠ JSVal.vUndef) (h3 : v ≠ JSVal.vStr "") :
    (isFalsy v && !(v == JSVal.vBool false) && !(v == JSVal.vNum 0)) = false := by
  cases v with
  | vNull => exact absurd rfl h1
  | vUndef => exact absurd rfl h2
  | vStr s =>
      have hs : s ≠ "" := fun h => h3 (by rw [h])
      simp [isFalsy, hs]
  | vNum n =>
      by_cases hn : n = 0 <;> simp [isFalsy, hn]
  | vBool b => cases b <;> simp [isFalsy]
  | vArr es => simp [isFalsy]

/-- Helper: any member of `filteredData` passes every active filter entry. -/
lemma mem_filteredData_passes (dateEq : JSVal → JSVal → Bool)
    (data : List Item) (searchFields : List String) (caseSensitive : Bool)
    (minSearchLength : Nat) (filterOpts : List FilterOption)
    (searchTerm : String) (filters : List (String × JSVal))
    (item : Item)
    (hitem : item ∈ filteredData dateEq data searchFields caseSensitive
      minSearchLength filterOpts searchTerm filters)
    (entry : String × JSVal) (hentry : entry ∈ filters) :
    filterPasses dateEq filterOpts item entry = true := by
  unfold filteredData at hitem
  have h := (List.mem_filter.mp hitem).2
  exact (List.all_eq_true.mp h) entry hentry

/-- C9: in the tutoring flow, an answer-evaluation score `s` is recorded
as `s / 2` (integer division) when the hint was visible and as `s`
unchanged otherwise, and the recorded value is what is added to the
running total. -/
theorem tutorHintHalvesScore (prev s : Int) (h : 0 ≤ s) :
    recordedScore true s = s / 2 ∧ recordedScore false s = s ∧
    nextScoreSum prev true s = prev + s / 2 ∧
    nextScoreSum prev false s = prev + s := by
  unfold nextScoreSum recordedScore
  rcases lt_or_eq_of_le h with hlt | heq
  · simp [hlt]
  · simp [← heq]

theorem tutorHintHalvesScoreWitness :
    recordedScore true 7 = 7 / 2 ∧ recordedScore false 7 = 7 ∧
    nextScoreSum 10 true 7 = 10 + 7 / 2 ∧
    nextScoreSum 10 false 7 = 10 + 7 :=
  tutorHintHalvesScore 10 7 (by decide)

/-- C10: in `useSearchAndFilter`, an active `select` filter `(key, v)`
(with `v` neither null nor undefined nor the empty string, and the first
filter option found for `key` being of type select) admits only rows
whose `key` field strictly equals `v`; filter entries whose value is
null, undefined or the empty string exclude no rows; and `resultCount`
is the length of `filteredData`. -/
theorem searchAndFilterSelectCorrect (dateEq : JSVal → JSVal → Bool)
    (data : List Item) (searchFields : List String) (caseSensitive : Bool)
    (minSearchLength : Nat) (filterOpts : List FilterOption)
    (searchTerm : String) (filters : List (String × JSVal))
    (key : String) (v : JSVal) (opt : FilterOption)
    (hmem : (key, v) ∈ filters)
    (hfind : filterOpts.find? (fun o => o.key == key) = some opt)
    (hsel : opt.ftype = FilterType.select)
    (hnull : v ≠ JSVal.vNull) (hundef : v ≠ JSVal.vUndef)
    (hempty : v ≠ JSVal.vStr "") :
    (∀ item ∈ filteredData dateEq data searchFields caseSensitive
        minSearchLength filterOpts searchTerm filters, item key = v)
    ∧ (∀ (item : Item) (k : String),
        filterPasses dateEq filterOpts item (k, JSVal.vNull) = true ∧
        filterPasses dateEq filterOpts item (k, JSVal.vUndef) = true ∧
        filterPasses dateEq filterOpts item (k, JSVal.vStr "") = true)
    ∧ resultCount dateEq data searchFields caseSensitive minSearchLength
        filterOpts searchTerm filters
      = (filteredData dateEq data searchFields caseSensitive
          minSearchLength filterOpts searchTerm filters).length := by
  refine ⟨?_, ?_, rfl⟩
  · intro item hitem
    have hpass := mem_filteredData_passes dateEq data searchFields
      caseSensitive minSearchLength filterOpts searchTerm filters item hitem
      (key, v) hmem
    unfold filterPasses at hpass
    dsimp only at hpass
    rw [selectGuardFalse v hnull hundef hempty] at hpass
    simp only [Bool.false_eq_true, if_false, hfind, hsel] at hpass
    exact eq_of_beq hpass
  · intro item k
    refine ⟨?_, ?_, ?_⟩ <;> simp [filterPasses, isFalsy]

theorem searchAndFilterSelectCorrectWitness :
    (∀ item ∈ filteredData (fun _ _ => false)
        [fun k => if k == "subject" then JSVal.vStr "Matematika" else JSVal.vUndef,
         fun k => if k == "subject" then JSVal.vStr "Fizika" else JSVal.vUndef]
        [] false 0 [⟨"subject", "Tantargy", FilterType.select⟩] ""
        [("subject", JSVal.vStr "Matematika")], item "subject" = JSVal.vStr "Matematika")
    ∧ (∀ (item : Item) (k : String),
        filterPasses (fun _ _ => false)
          [⟨"subject", "Tantargy", FilterType.select⟩] item (k, JSVal.vNull) = true ∧
        filterPasses (fun _ _ => false)
          [⟨"subject", "Tantargy", FilterType.select⟩] item (k, JSVal.vUndef) = true ∧
        filterPasses (fun _ _ => false)
          [⟨"subject", "Tantargy", FilterType.select⟩] item (k, JSVal.vStr "") = true)
    ∧ resultCount (fun _ _ => false)
        [fun k => if k == "subject" then JSVal.vStr "Matematika" else JSVal.vUndef,
         fun k => if k == "subject" then JSVal.vStr "Fizika" else JSVal.vUndef]
        [] false 0 [⟨"subject", "Tantargy", FilterType.select⟩] ""
        [("subject", JSVal.vStr "Matematika")]
      = (filteredData (fun _ _ => false)
          [fun k => if k == "subject" then JSVal.vStr "Matematika" else JSVal.vUndef,
           fun k => if k == "subject" then JSVal.vStr "Fizika" else JSVal.vUndef]
          [] false 0 [⟨"subject", "Tantargy", FilterType.select⟩] ""
          [("subject", JSVal.vStr "Matematika")]).length :=
  searchAndFilterSelectCorrect (fun _ _ => false) _ [] false 0 _ "" _
    "subject" (JSVal.vStr "Matematika") ⟨"subject", "Tantargy", FilterType.select⟩
    (by decide) (by decide) rfl (by decide) (by decide) (by decide)

/-! ## Retrieval and ranking engine

The engine itself lives in `backend/app/rag/rag_pipeline.py`, which is
not among the available sources (only its frontend callers in
`src/frontend/pages/search.tsx` and the AI chat page are).  The
definitions below are therefore modelled from the specification, section
4.5.  The external vector store is abstracted as the ranked candidate
list it returns for the over-fetched query; distances and scores are
exact rationals.
-/

/-- Modelled from the spec: the denormalized chapter metadata carried by
every chunk (subject, grade, owning source/chapter, chapter title). -/
structure ChunkMeta where
  subject : String
  grade : Nat
  source : String
  chapterTitle : String
  deriving DecidableEq, Repr

/-- Modelled from the spec: one ranked `(id, score, payload)` row
returned by the vector store, with its raw distance. -/
structure Candidate where
  chunkId : String
  content : String
  meta : ChunkMeta
  dist : ℚ
  deriving DecidableEq

/-- Modelled from the spec: a transient SearchResult with its normalized
relevance score. -/
structure SearchResult where
  chunkId : String
  content : String
  meta : ChunkMeta
  score : ℚ
  deriving DecidableEq

/-- Modelled from the spec: the optional subject/grade post-filters of
`search`. -/
structure SearchFilters where
  subject : Option String
  grade : Option Nat

/-- Modelled from the spec: does chunk metadata satisfy the filters? -/
def matchesFilters (f : SearchFilters) (m : ChunkMeta) : Bool :=
  (match f.subject with
   | some s => m.subject == s
   | none => true) &&
  (match f.grade with
   | some g => m.grade == g
   | none => true)

/-- Modelled from the spec: score normalization by the monotonic
transform `1 / (1 + distance)`, mapping any nonnegative distance into
`[0, 1]` with higher meaning more relevant. -/
def scoreCandidate (c : Candidate) : SearchResult :=
  { chunkId := c.chunkId, content := c.content, meta := c.meta,
    score := 1 / (1 + c.dist) }

/-- Modelled from the spec: deduplication by chunk source, keeping the
first (best-ranked) result per distinct chapter source; order stable. -/
def dedupBySource (rs : List SearchResult) : List SearchResult :=
  rs.foldl
    (fun acc r =>
      if acc.any (fun a => a.meta.source == r.meta.source) then acc
      else acc ++ [r])
    []

/-- Modelled from the spec: `search` over the candidates the vector
store returned for the over-fetched query: normalize scores, apply
filters, deduplicate by source (backfilling from the filtered pool only
when the deduplicated list cannot satisfy `k`), truncate to `k`. -/
def searchRank (candidates : List Candidate) (k : Nat)
    (f : SearchFilters) : List SearchResult :=
  let scored := candidates.map scoreCandidate
  let filtered := scored.filter (fun r => matchesFilters f r.meta)
  let deduped := dedupBySource filtered
  let results :=
    if k ≤ deduped.length then deduped
    else deduped ++ filtered.filter (fun r => !(deduped.contains r))
  results.take k

/-! ## RAG orchestrator

The orchestrator lives in `backend/app/routers/rag.py` /
`backend/app/rag/rag_pipeline.py`, absent from the available sources;
only its response shape (`RAGResponse` in the AI chat page) is visible.
Modelled from the specification, section 4.6.
-/

/-- Embedded from the `RAGResponse` interface of the AI chat page
(answer, sources, context_used), with sources as engine results. -/
structure RAGAnswer where
  answer : String
  sources : List SearchResult
  contextUsed : Bool

/-- Modelled from the spec: one context block, chapter title plus
per-source truncated chunk content. -/
def contextBlock (maxChars : Nat) (r : SearchResult) : String :=
  r.meta.chapterTitle ++ "\n" ++ r.content.take maxChars

/-- Modelled from the spec: the bounded context assembled from the used
results, in order. -/
def assembleContext (maxChars : Nat) (rs : List SearchResult) : String :=
  String.intercalate "\n\n" (rs.map (contextBlock maxChars))

/-- Modelled from the spec: `answer(query, ...)`.  With zero retrieval
results the generation call is made without grounding context and
`context_used` is false; otherwise the context is assembled from the top
results and `sources` reports exactly the chunks included. -/
def answerQuery (generate : String → String) (maxSources maxChars : Nat)
    (query : String) (retrieved : List SearchResult) : RAGAnswer :=
  if retrieved.isEmpty then
    { answer := generate query, sources := [], contextUsed := false }
  else
    let used := retrieved.take maxSources
    { answer :=
        generate (assembleContext maxChars used ++ "\n\nKerdes: " ++ query),
      sources := used,
      contextUsed := true }

/-! ### Theorems for C3, C4 and C7 -/

lemma mem_dedupBySource_aux (step : List SearchResult → SearchResult → List SearchResult)
    (hstep : ∀ acc r x, x ∈ step acc r → x ∈ acc ∨ x = r)
    (rs : List SearchResult) (acc : List SearchResult) (x : SearchResult)
    (h : x ∈ rs.foldl step acc) : x ∈ acc ∨ x ∈ rs := by
  induction rs generalizing acc with
  | nil => exact Or.inl h
  | cons r rest ih =>
    rcases ih (step acc r) h with hacc | hrest
    · rcases hstep acc r x hacc with h1 | h2
      · exact Or.inl h1
      · exact Or.inr (h2 ▸ List.mem_cons_self r rest)
    · exact Or.inr (List.mem_cons_of_mem r hrest)

lemma mem_dedupBySource (rs : List SearchResult) (x : SearchResult)
    (h : x ∈ dedupBySource rs) : x ∈ rs := by
  unfold dedupBySource at h
  have := mem_dedupBySource_aux _ ?_ rs [] x h
  · rcases this with h1 | h1
    · exact absurd h1 (List.not_mem_nil x)
    · exact h1
  · intro acc r y hy
    by_cases hc : acc.any (fun a => a.meta.source == r.meta.source) = true
    · rw [if_pos hc] at hy
      exact Or.inl hy
    · rw [if_neg hc] at hy
      rcases List.mem_append.mp hy with h1 | h1
      · exact Or.inl h1
      · exact Or.inr (List.mem_singleton.mp h1)

/-- Helper: every result of `searchRank` arises from a candidate that
passed the filters. -/
lemma mem_searchRank (candidates : List Candidate) (k : Nat)
    (f : SearchFilters) (r : SearchResult)
    (h : r ∈ searchRank candidates k f) :
    ∃ c ∈ candidates, r = scoreCandidate c ∧
      matchesFilters f r.meta = true := by
  unfold searchRank at h
  have hres := List.mem_of_mem_take h
  have hfil : r ∈ (candidates.map scoreCandidate).filter
      (fun r => matchesFilters f r.meta) := by
    by_cases hk : k ≤ (dedupBySource ((candidates.map scoreCandidate).filter
        (fun r => matchesFilters f r.meta))).length
    · rw [if_pos hk] at hres
      exact mem_dedupBySource _ _ hres
    · rw [if_neg hk] at hres
      rcases List.mem_append.mp hres with h1 | h1
      · exact mem_dedupBySource _ _ h1
      · exact List.mem_of_mem_filter h1
  have hmatch := (List.mem_filter.mp hfil).2
  have hmap := (List.mem_filter.mp hfil).1
  rcases List.mem_map.mp hmap with ⟨c, hc, hceq⟩
  exact ⟨c, hc, hceq.symm, hmatch⟩

/-- C3: a search with a subject filter never returns a chunk whose
subject differs from the filter value. -/
theorem searchSubjectFilterCorrect (candidates : List Candidate)
    (k : Nat) (s : String) (g : Option Nat) (r : SearchResult)
    (h : r ∈ searchRank candidates k ⟨some s, g⟩) :
    r.meta.subject = s := by
  rcases mem_searchRank candidates k ⟨some s, g⟩ r h with ⟨c, _, _, hmatch⟩
  unfold matchesFilters at hmatch
  have := (Bool.and_eq_true _ _ |>.mp hmatch).1
  exact eq_of_beq this

/-- C4: every result of a search carries a score in `[0, 1]`, provided
the vector store reports nonnegative distances. -/
theorem searchScoresNormalized (candidates : List Candidate) (k : Nat)
    (f : SearchFilters) (hd : ∀ c ∈ candidates, 0 ≤ c.dist)
    (r : SearchResult) (h : r ∈ searchRank candidates k f) :
    0 ≤ r.score ∧ r.score ≤ 1 := by
  rcases mem_searchRank candidates k f r h with ⟨c, hc, hceq, _⟩
  have hdist := hd c hc
  have hpos : (0 : ℚ) < 1 + c.dist := by linarith
  subst hceq
  unfold scoreCandidate
  constructor
  · positivity
  · rw [div_le_one hpos]
    linarith

/-- C7: with zero retrieval results the orchestrator answers without
grounding context (`context_used = false`, `sources = []`); in every
case the reported sources are exactly the chunks whose blocks form the
assembled context, in order. -/
theorem ragOrchestratorGrounding (generate : String → String)
    (maxSources maxChars : Nat) (query : String)
    (retrieved : List SearchResult) :
    (retrieved = [] →
      (answerQuery generate maxSources maxChars query retrieved).contextUsed
          = false ∧
      (answerQuery generate maxSources maxChars query retrieved).sources
          = [])
    ∧ (retrieved ≠ [] →
      (answerQuery generate maxSources maxChars query retrieved).contextUsed
          = true ∧
      (answerQuery generate maxSources maxChars query retrieved).answer
        = generate (assembleContext maxChars
            (answerQuery generate maxSources maxChars query retrieved).sources
            ++ "\n\nKerdes: " ++ query)) := by
  constructor
  · intro hempty
    subst hempty
    simp [answerQuery]
  · intro hne
    have hno : retrieved.isEmpty = false := by
      cases retrieved with
      | nil => exact absurd rfl hne
      | cons a l => rfl
    simp [answerQuery, hno]

/-- Fixture candidate used by the retrieval witnesses. -/
def cand1 : Candidate :=
  ⟨"id1", "tartalom", ⟨"Matematika", 5, "forras1", "Elso fejezet"⟩, 0⟩

lemma cand1_mem_searchRank :
    scoreCandidate cand1 ∈ searchRank [cand1] 1 ⟨some "Matematika", none⟩ := by
  have h : searchRank [cand1] 1 ⟨some "Matematika", none⟩
      = [scoreCandidate cand1] := rfl
  rw [h]
  exact List.mem_singleton.mpr rfl

lemma cand1_mem_searchRank_nofilter :
    scoreCandidate cand1 ∈ searchRank [cand1] 1 ⟨none, none⟩ := by
  have h : searchRank [cand1] 1 ⟨none, none⟩ = [scoreCandidate cand1] := rfl
  rw [h]
  exact List.mem_singleton.mpr rfl

theorem searchSubjectFilterCorrectWitness :
    (scoreCandidate cand1).meta.subject = "Matematika" :=
  searchSubjectFilterCorrect [cand1] 1 "Matematika" none
    (scoreCandidate cand1) cand1_mem_searchRank

theorem searchScoresNormalizedWitness :
    0 ≤ (scoreCandidate cand1).score ∧ (scoreCandidate cand1).score ≤ 1 :=
  searchScoresNormalized [cand1] 1 ⟨none, none⟩
    (by intro c hc; rw [List.mem_singleton.mp hc]; exact le_refl 0)
    (scoreCandidate cand1) cand1_mem_searchRank_nofilter

theorem ragOrchestratorGroundingWitness :
    (([] : List SearchResult) = [] →
      (answerQuery (fun s => s) 3 200 "mi ez" []).contextUsed = false ∧
      (answerQuery (fun s => s) 3 200 "mi ez" []).sources = [])
    ∧ (([] : List SearchResult) ≠ [] →
      (answerQuery (fun s => s) 3 200 "mi ez" []).contextUsed = true ∧
      (answerQuery (fun s => s) 3 200 "mi ez" []).answer
        = (fun s => s) (assembleContext 200
            (answerQuery (fun s => s) 3 200 "mi ez" []).sources
            ++ "\n\nKerdes: " ++ "mi ez")) :=
  ragOrchestratorGrounding (fun s => s) 3 200 "mi ez" []

/-! ## Chunk builder

The builder lives in `rag-pipeline/src/document_processor.py`, absent
from the available sources (only the design document
`src/unnamed/part_015` describes it).  Modelled from the specification,
section 4.3.  Chapter body text is modelled at token granularity: a
paragraph is a token list and the body is the paragraph list; joining
tokens back into a string is presentation only.
-/

abbrev Token := String

/-- Modelled from the spec: hard split of one over-long paragraph into
pieces of at most `m + 1` tokens each, dropping nothing. -/
def hardSplitAux (m : Nat) : List Token → List (List Token)
  | [] => []
  | t :: ts => (t :: ts.take m) :: hardSplitAux m (ts.drop m)
termination_by l => l.length
decreasing_by simp only [List.length_drop, List.length_cons]; omega

/-- Modelled from the spec: a paragraph longer than `maxTokens` is hard
split at the token boundary (pieces of at most `max maxTokens 1`). -/
def hardSplit (maxTokens : Nat) (p : List Token) : List (List Token) :=
  hardSplitAux (maxTokens - 1) p

/-- Modelled from the spec: greedy packing of paragraph pieces into
chunks; a piece that would push the open chunk past `maxTokens` closes
it and opens a new one. -/
def packAux (maxTokens : Nat) (cur : List Token)
    (acc : List (List Token)) : List (List Token) → List (List Token)
  | [] => if cur.isEmpty then acc.reverse else (cur :: acc).reverse
  | p :: ps =>
    if cur.isEmpty then packAux maxTokens p acc ps
    else if maxTokens < cur.length + p.length then
      packAux maxTokens p (cur :: acc) ps
    else packAux maxTokens (cur ++ p) acc ps

/-- Modelled from the spec: split the chapter body on paragraph
boundaries, hard split over-long paragraphs, then pack greedily. -/
def packParagraphs (maxTokens : Nat)
    (paragraphs : List (List Token)) : List (List Token) :=
  packAux maxTokens [] [] ((paragraphs.map (hardSplit maxTokens)).flatten)

/-- Modelled from the spec: a retrieval chunk; `overlapPre` models the
overlap_prefix duplicated from the end of the previous chunk, and
`content` is that overlap followed by the tokens owned by this chunk. -/
structure Chunk where
  idx : Nat
  overlapPre : List Token
  content : List Token
  deriving DecidableEq, Repr

/-- The content of a chunk with its overlap_prefix stripped. -/
def chunkOwn (c : Chunk) : List Token :=
  c.content.drop c.overlapPre.length

/-- Modelled from the spec: seed every chunk after the first with the
last `ov` tokens of the previous chunk's content as overlap. -/
def attachAux (ov : Nat) (idx : Nat) (prevContent : List Token) :
    List (List Token) → List Chunk
  | [] => []
  | c :: cs =>
    let pre := prevContent.drop (prevContent.length - ov)
    ⟨idx, pre, pre ++ c⟩ :: attachAux ov (idx + 1) (pre ++ c) cs

/-- Modelled from the spec: number chunks from 0 and attach overlaps. -/
def attachOverlap (ov : Nat) : List (List Token) → List Chunk
  | [] => []
  | c :: cs => ⟨0, [], c⟩ :: attachAux ov 1 c cs

/-- Modelled from the spec: `build(chapter, metadata, max_tokens,
overlap_tokens)`, at token granularity. -/
def buildChunks (maxTokens ov : Nat)
    (paragraphs : List (List Token)) : List Chunk :=
  attachOverlap ov (packParagraphs maxTokens paragraphs)

/-! ### Round-trip law and chunk ordering (C1) -/

lemma hardSplitAux_flatten (m : Nat) (p : List Token) :
    (hardSplitAux m p).flatten = p := by
  induction p using hardSplitAux.induct m with
  | case1 => rw [hardSplitAux]; rfl
  | case2 t ts ih =>
    rw [hardSplitAux, List.flatten_cons, ih]
    simp [List.take_append_drop]

lemma packAux_flatten (maxTokens : Nat) (l : List (List Token))
    (cur : List Token) (acc : List (List Token)) :
    (packAux maxTokens cur acc l).flatten
      = acc.reverse.flatten ++ cur ++ l.flatten := by
  induction l generalizing cur acc with
  | nil =>
    by_cases hcur : cur.isEmpty
    · rw [packAux, if_pos hcur]
      rw [List.isEmpty_iff.mp hcur]
      simp
    · rw [packAux, if_neg hcur]
      simp
  | cons p ps ih =>
    rw [packAux]
    by_cases hcur : cur.isEmpty
    · rw [if_pos hcur, ih, List.isEmpty_iff.mp hcur]
      simp
    · rw [if_neg hcur]
      by_cases hover : maxTokens < cur.length + p.length
      · rw [if_pos hover, ih]
        simp
      · rw [if_neg hover, ih]
        simp

lemma attachAux_strip (ov : Nat) (l : List (List Token)) (idx : Nat)
    (prevContent : List Token) :
    (attachAux ov idx prevContent l).map chunkOwn = l := by
  induction l generalizing idx prevContent with
  | nil => rfl
  | cons c cs ih =>
    rw [attachAux, List.map_cons, ih]
    simp [chunkOwn, List.drop_left]

lemma attachOverlap_strip (ov : Nat) (l : List (List Token)) :
    (attachOverlap ov l).map chunkOwn = l := by
  cases l with
  | nil => rfl
  | cons c cs =>
    rw [attachOverlap, List.map_cons, attachAux_strip]
    simp [chunkOwn]

lemma attachAux_idx (ov : Nat) (l : List (List Token)) (idx : Nat)
    (prevContent : List Token) :
    (attachAux ov idx prevContent l).map Chunk.idx
      = List.range' idx l.length := by
  induction l generalizing idx prevContent with
  | nil => rfl
  | cons c cs ih =>
    rw [attachAux, List.map_cons, ih, List.length_cons, List.range'_succ]

lemma attachAux_length (ov : Nat) (l : List (List Token)) (idx : Nat)
    (prevContent : List Token) :
    (attachAux ov idx prevContent l).length = l.length := by
  induction l generalizing idx prevContent with
  | nil => rfl
  | cons c cs ih => rw [attachAux, List.length_cons, ih, List.length_cons]

lemma attachOverlap_idx (ov : Nat) (l : List (List Token)) :
    (attachOverlap ov l).map Chunk.idx
      = List.range (attachOverlap ov l).length := by
  cases l with
  | nil => rfl
  | cons c cs =>
    rw [attachOverlap, List.map_cons, attachAux_idx]
    rw [List.range_eq_range', List.length_cons, attachAux_length]
    exact (List.range'_succ 0 cs.length 1).symm

lemma flatten_hardSplit (maxTokens : Nat)
    (paragraphs : List (List Token)) :
    ((paragraphs.map (hardSplit maxTokens)).flatten).flatten
      = paragraphs.flatten := by
  induction paragraphs with
  | nil => rfl
  | cons p ps ih =>
    rw [List.map_cons, List.flatten_cons, List.flatten_append, ih,
      List.flatten_cons]
    rw [hardSplit, hardSplitAux_flatten]

/-- C1: stripping each overlap_prefix and concatenating chunk contents
in chunk order reproduces the chapter body exactly, and the chunk
indices (the per-chapter component of the chunk_id) are exactly
`0, 1, 2, ...` in output order. -/
theorem chunkRoundTrip (maxTokens ov : Nat)
    (paragraphs : List (List Token)) :
    ((buildChunks maxTokens ov paragraphs).map chunkOwn).flatten
        = paragraphs.flatten
    ∧ (buildChunks maxTokens ov paragraphs).map Chunk.idx
        = List.range (buildChunks maxTokens ov paragraphs).length := by
  constructor
  · rw [buildChunks, attachOverlap_strip, packParagraphs, packAux_flatten]
    simp [flatten_hardSplit]
  · rw [buildChunks, attachOverlap_idx]

/-! ## Indexing adapter and chunk identifiers

The adapter lives in the absent rag-pipeline sources; modelled from the
specification, sections 3, 4.3 and 4.4.  The vector store is modelled as
an association list keyed by chunk_id; `upsertEntry` overwrites an
existing key and appends a new one.
-/

/-- Modelled from the spec: the deterministic chunk identifier
`hash(source_id, chapter_sequence, chunk_index)`, modelled as an
injective encoding of the triple. -/
def chunkId (sourceId : String) (chapterSeq chunkIdx : Nat) : String :=
  sourceId ++ "::" ++ toString chapterSeq ++ "::" ++ toString chunkIdx

/-- Modelled from the spec: the `(chunk_id, content)` rows the builder
hands to the indexing adapter for one chapter. -/
def builtEntries (sourceId : String) (chapterSeq maxTokens ov : Nat)
    (paragraphs : List (List Token)) : List (String × List Token) :=
  (buildChunks maxTokens ov paragraphs).map
    (fun c => (chunkId sourceId chapterSeq c.idx, c.content))

/-- Modelled from the spec: idempotent upsert keyed by chunk_id. -/
def upsertEntry (store : List (String × List Token)) (id : String)
    (v : List Token) : List (String × List Token) :=
  if store.any (fun p => p.1 == id) then
    store.map (fun p => if p.1 == id then (id, v) else p)
  else store ++ [(id, v)]

/-- Modelled from the spec: `index(chunks)`, upserting each row. -/
def indexBatch (store : List (String × List Token))
    (batch : List (String × List Token)) : List (String × List Token) :=
  batch.foldl (fun s c => upsertEntry s c.1 c.2) store

/-- Key-presence test on the store. -/
def hasKey (store : List (String × List Token)) (id : String) : Bool :=
  store.any (fun p => p.1 == id)

/-! ### Lemmas for C5 -/

lemma hasKey_upsertEntry_self (store : List (String × List Token))
    (id : String) (v : List Token) :
    hasKey (upsertEntry store id v) id = true := by
  unfold hasKey upsertEntry
  by_cases h : store.any (fun p => p.1 == id) = true
  · rw [if_pos h]
    rcases List.any_eq_true.mp h with ⟨p, hp, hpid⟩
    refine List.any_eq_true.mpr ⟨(id, v), ?_, by simp⟩
    refine List.mem_map.mpr ⟨p, hp, ?_⟩
    rw [if_pos hpid]
  · rw [if_neg h]
    refine List.any_eq_true.mpr ⟨(id, v), by simp, by simp⟩

lemma hasKey_upsertEntry_mono (store : List (String × List Token))
    (id id' : String) (v : List Token)
    (h : hasKey store id' = true) :
    hasKey (upsertEntry store id v) id' = true := by
  unfold hasKey upsertEntry
  unfold hasKey at h
  by_cases hc : store.any (fun p => p.1 == id) = true
  · rw [if_pos hc]
    rcases List.any_eq_true.mp h with ⟨p, hp, hpid⟩
    by_cases hpi : p.1 == id
    · refine List.any_eq_true.mpr ⟨(id, v), ?_, ?_⟩
      · exact List.mem_map.mpr ⟨p, hp, by rw [if_pos hpi]⟩
      · have h1 : p.1 = id := eq_of_beq hpi
        have h2 : p.1 = id' := eq_of_beq hpid
        simp [← h1, h2]
    · refine List.any_eq_true.mpr ⟨p, ?_, hpid⟩
      exact List.mem_map.mpr ⟨p, hp, by rw [if_neg hpi]⟩
  · rw [if_neg hc]
    rcases List.any_eq_true.mp h with ⟨p, hp, hpid⟩
    exact List.any_eq_true.mpr ⟨p, List.mem_append_left _ hp, hpid⟩

lemma hasKey_indexBatch_mono (batch : List (String × List Token))
    (store : List (String × List Token)) (id : String)
    (h : hasKey store id = true) :
    hasKey (indexBatch store batch) id = true := by
  induction batch generalizing store with
  | nil => exact h
  | cons c rest ih =>
    exact ih _ (hasKey_upsertEntry_mono store c.1 id c.2 h)

lemma hasKey_indexBatch_of_mem (batch : List (String × List Token))
    (store : List (String × List Token)) (c : String × List Token)
    (hc : c ∈ batch) :
    hasKey (indexBatch store batch) c.1 = true := by
  induction batch generalizing store with
  | nil => exact absurd hc (List.not_mem_nil c)
  | cons b rest ih =>
    rcases List.mem_cons.mp hc with h1 | h1
    · subst h1
      exact hasKey_indexBatch_mono rest _ c.1
        (hasKey_upsertEntry_self store c.1 c.2)
    · exact ih _ h1

lemma length_upsertEntry_of_hasKey (store : List (String × List Token))
    (id : String) (v : List Token) (h : hasKey store id = true) :
    (upsertEntry store id v).length = store.length := by
  unfold upsertEntry
  unfold hasKey at h
  rw [if_pos h, List.length_map]

lemma length_indexBatch_of_all_hasKey (batch : List (String × List Token))
    (store : List (String × List Token))
    (h : ∀ c ∈ batch, hasKey store c.1 = true) :
    (indexBatch store batch).length = store.length := by
  induction batch generalizing store with
  | nil => rfl
  | cons c rest ih =>
    have hc : hasKey store c.1 = true := h c (List.mem_cons_self c rest)
    have hrest : ∀ b ∈ rest, hasKey (upsertEntry store c.1 c.2) b.1 = true :=
      fun b hb =>
        hasKey_upsertEntry_mono store c.1 b.1 c.2
          (h b (List.mem_cons_of_mem c hb))
    calc (indexBatch (upsertEntry store c.1 c.2) rest).length
        = (upsertEntry store c.1 c.2).length := ih _ hrest
      _ = store.length := length_upsertEntry_of_hasKey store c.1 c.2 hc

/-- C5: the chunk_ids of two builder runs on unchanged input are
identical (the id is a pure function of source id, chapter sequence and
chunk index), and re-indexing the same batch leaves the store's entry
count unchanged. -/
theorem idempotentIndexing (sourceId : String)
    (chapterSeq maxTokens ov : Nat) (paragraphs : List (List Token))
    (store : List (String × List Token)) :
    ((builtEntries sourceId chapterSeq maxTokens ov paragraphs).map
        Prod.fst
      = (builtEntries sourceId chapterSeq maxTokens ov paragraphs).map
        Prod.fst)
    ∧ (indexBatch
        (indexBatch store
          (builtEntries sourceId chapterSeq maxTokens ov paragraphs))
        (builtEntries sourceId chapterSeq maxTokens ov paragraphs)).length
      = (indexBatch store
          (builtEntries sourceId chapterSeq maxTokens ov paragraphs)).length := by
  refine ⟨rfl, ?_⟩
  apply length_indexBatch_of_all_hasKey
  intro c hc
  exact hasKey_indexBatch_of_mem _ store c hc

/-! ## Boundary detector

The detector lives in `rag-pipeline/src/document_processor.py`, absent
from the available sources; its heading patterns are documented in
`src/unnamed/part_015` (`CHAPTER_PATTERNS`).  Modelled from the
specification, section 4.1.  A document is modelled as its list of
lines; character offsets are reconstructed by summing line lengths plus
one newline per line.
-/

/-- Total character length of a document given as lines (each line
contributes its length plus its newline). -/
def textLen : List String → Nat
  | [] => 0
  | l :: ls => l.length + 1 + textLen ls

/-- The character offset of each line, starting from `base`. -/
def lineOffsetsGo (base : Nat) : List String → List Nat
  | [] => []
  | l :: ls => base :: lineOffsetsGo (base + l.length + 1) ls

/-- Modelled from the spec: a detected Chapter span (title, start and
end character offsets into the document text). -/
structure RawChapter where
  title : String
  startOffset : Nat
  endOffset : Nat
  deriving DecidableEq, Repr

/-- The heading lines together with their offsets, in document order. -/
def headingMarks (isHeading : String → Bool)
    (lines : List String) : List (String × Nat) :=
  (lines.zip (lineOffsetsGo 0 lines)).filter (fun p => isHeading p.1)

/-- Modelled from the spec: consecutive boundaries become chapter spans;
the last chapter ends at the end of the document. -/
def chaptersFromGo (total : Nat) : List (String × Nat) → List RawChapter
  | [] => []
  | [(t, b)] => [⟨t, b, total⟩]
  | (t, b) :: (t2, b2) :: rest =>
    ⟨t, b, b2⟩ :: chaptersFromGo total ((t2, b2) :: rest)

/-- Modelled from the spec: `detect(text)`.  Matched heading lines open
chapter boundaries at their offsets; text before the first heading forms
a leading chapter named from the source identifier; with no matches at
all the whole document is one chapter named from the source identifier.
The function is total: malformed input degrades to the fallback, it
never fails. -/
def detect (isHeading : String → Bool) (sourceId : String)
    (lines : List String) : List RawChapter :=
  let total := textLen lines
  match headingMarks isHeading lines with
  | [] => [⟨sourceId, 0, total⟩]
  | (t, b) :: rest =>
    if b = 0 then chaptersFromGo total ((t, b) :: rest)
    else chaptersFromGo total ((sourceId, 0) :: (t, b) :: rest)

/-! ### Concrete heading matcher

Modelled from the `CHAPTER_PATTERNS` rules documented in
`src/unnamed/part_015`: arabic "1. fejezet: cim", roman "I. fejezet:
cim" (keywords fejezet, rész, lecke), and the numbered short capitalized
title "1. Nagy Cim".  The detector theorems are parametric in the
matcher, since further patterns are elided in the documentation. -/

def dropSpaces (cs : List Char) : List Char :=
  cs.dropWhile (fun c => c = ' ')

def chapterKeywords : List String := ["fejezet", "rész", "lecke"]

def matchesNumberedChapter (line : String) : Bool :=
  let cs := dropSpaces line.toList
  let ds := cs.takeWhile Char.isDigit
  let rest := cs.dropWhile Char.isDigit
  if ds.isEmpty then false
  else
    match rest with
    | '.' :: rest2 =>
      chapterKeywords.any (fun kw => kw.toList.isPrefixOf (dropSpaces rest2))
    | _ => false

def isRomanChar (c : Char) : Bool :=
  c = 'I' || c = 'V' || c = 'X'

def matchesRomanChapter (line : String) : Bool :=
  let cs := dropSpaces line.toList
  let ds := cs.takeWhile isRomanChar
  let rest := cs.dropWhile isRomanChar
  if ds.isEmpty then false
  else
    match rest with
    | '.' :: rest2 =>
      chapterKeywords.any (fun kw => kw.toList.isPrefixOf (dropSpaces rest2))
    | _ => false

def isHuUpper (c : Char) : Bool :=
  c.isUpper || "ÁÉÍÓÖŐÚÜŰ".toList.contains c

def matchesNumberedTitle (line : String) : Bool :=
  let cs := dropSpaces line.toList
  let ds := cs.takeWhile Char.isDigit
  let rest := cs.dropWhile Char.isDigit
  if ds.isEmpty then false
  else
    match rest with
    | '.' :: rest2 =>
      (match dropSpaces rest2 with
       | [] => false
       | c :: tail => isHuUpper c && decide (5 ≤ tail.length)
           && decide (tail.length ≤ 50))
    | _ => false

/-- The ordered rule list, first match wins (a line is a heading when
any rule accepts it; rule order selects the captured groups, which the
boundary offsets do not depend on). -/
def chapterHeadingMatch (line : String) : Bool :=
  matchesNumberedChapter line || matchesRomanChapter line
    || matchesNumberedTitle line

/-! ### Lemmas for C2 and C6 -/

lemma lineOffsetsGo_length (lines : List String) (base : Nat) :
    (lineOffsetsGo base lines).length = lines.length := by
  induction lines generalizing base with
  | nil => rfl
  | cons l ls ih => rw [lineOffsetsGo, List.length_cons, ih, List.length_cons]

lemma lineOffsetsGo_ge (lines : List String) (base : Nat) :
    ∀ o ∈ lineOffsetsGo base lines, base ≤ o := by
  induction lines generalizing base with
  | nil => intro o ho; exact absurd ho (List.not_mem_nil o)
  | cons l ls ih =>
    intro o ho
    rcases List.mem_cons.mp ho with h1 | h1
    · exact h1 ▸ le_refl base
    · have := ih (base + l.length + 1) o h1
      omega

lemma lineOffsetsGo_sorted (lines : List String) (base : Nat) :
    List.Pairwise (· < ·) (lineOffsetsGo base lines) := by
  induction lines generalizing base with
  | nil => exact List.Pairwise.nil
  | cons l ls ih =>
    rw [lineOffsetsGo]
    refine List.pairwise_cons.mpr ⟨?_, ih _⟩
    intro o ho
    have := lineOffsetsGo_ge ls (base + l.length + 1) o ho
    omega

lemma lineOffsetsGo_lt_textLen (lines : List String) (base : Nat) :
    ∀ o ∈ lineOffsetsGo base lines, o < base + textLen lines := by
  induction lines generalizing base with
  | nil => intro o ho; exact absurd ho (List.not_mem_nil o)
  | cons l ls ih =>
    intro o ho
    rw [textLen]
    rcases List.mem_cons.mp ho with h1 | h1
    · omega
    · have := ih (base + l.length + 1) o h1
      omega

lemma headingMarks_snd_sublist (isHeading : String → Bool)
    (lines : List String) :
    List.Sublist ((headingMarks isHeading lines).map Prod.snd)
      (lineOffsetsGo 0 lines) := by
  unfold headingMarks
  have h1 : List.Sublist
      ((lines.zip (lineOffsetsGo 0 lines)).filter (fun p => isHeading p.1))
      (lines.zip (lineOffsetsGo 0 lines)) := List.filter_sublist _
  have h2 := h1.map Prod.snd
  have h3 : (lines.zip (lineOffsetsGo 0 lines)).map Prod.snd
      = lineOffsetsGo 0 lines :=
    List.map_snd_zip _ _ (le_of_eq (lineOffsetsGo_length lines 0))
  rw [h3] at h2
  exact h2

lemma headingMarks_snd_sorted (isHeading : String → Bool)
    (lines : List String) :
    List.Pairwise (· < ·) ((headingMarks isHeading lines).map Prod.snd) :=
  (lineOffsetsGo_sorted lines 0).sublist
    (headingMarks_snd_sublist isHeading lines)

lemma headingMarks_snd_le_total (isHeading : String → Bool)
    (lines : List String) :
    ∀ p ∈ headingMarks isHeading lines, p.2 ≤ textLen lines := by
  intro p hp
  have hmem : p.2 ∈ (headingMarks isHeading lines).map Prod.snd :=
    List.mem_map.mpr ⟨p, hp, rfl⟩
  have hsub := (headingMarks_snd_sublist isHeading lines).mem hmem
  have := lineOffsetsGo_lt_textLen lines 0 p.2 hsub
  omega

lemma chaptersFromGo_map_start (total : Nat) (bs : List (String × Nat)) :
    (chaptersFromGo total bs).map RawChapter.startOffset
      = bs.map Prod.snd := by
  induction bs using chaptersFromGo.induct total with
  | case1 => rfl
  | case2 t b => rfl
  | case3 t b t2 b2 rest ih =>
    rw [chaptersFromGo, List.map_cons, ih]
    rfl

lemma chaptersFromGo_nonoverlap (total : Nat) (bs : List (String × Nat))
    (hsorted : List.Pairwise (· < ·) (bs.map Prod.snd))
    (hbound : ∀ p ∈ bs, p.2 ≤ total) :
    List.Pairwise (fun a b => a.endOffset ≤ b.startOffset)
      (chaptersFromGo total bs) := by
  induction bs using chaptersFromGo.induct total with
  | case1 => exact List.Pairwise.nil
  | case2 t b => exact List.pairwise_singleton _ _
  | case3 t b t2 b2 rest ih =>
    rw [chaptersFromGo]
    refine List.pairwise_cons.mpr ⟨?_, ?_⟩
    · intro ch hch
      have hstart : ch.startOffset ∈
          (chaptersFromGo total ((t2, b2) :: rest)).map RawChapter.startOffset :=
        List.mem_map.mpr ⟨ch, hch, rfl⟩
      rw [chaptersFromGo_map_start] at hstart
      rcases List.mem_cons.mp hstart with h1 | h1
      · exact le_of_eq h1.symm
      · have htail := (List.pairwise_cons.mp hsorted).2
        have := (List.pairwise_cons.mp htail).1 ch.startOffset h1
        exact le_of_lt this
    · refine ih ?_ ?_
      · exact (List.pairwise_cons.mp hsorted).2
      · intro p hp
        exact hbound p (List.mem_cons_of_mem _ hp)

/-- C2: for every document and every heading matcher, the detected
chapters have strictly increasing start offsets and pairwise
non-overlapping body spans (each span ends no later than every later
span begins). -/
theorem detectOrdered (isHeading : String → Bool) (sourceId : String)
    (lines : List String) :
    List.Pairwise (· < ·)
      ((detect isHeading sourceId lines).map RawChapter.startOffset)
    ∧ List.Pairwise (fun a b => a.endOffset ≤ b.startOffset)
      (detect isHeading sourceId lines) := by
  unfold detect
  have hsorted := headingMarks_snd_sorted isHeading lines
  have hbound := headingMarks_snd_le_total isHeading lines
  cases hmarks : headingMarks isHeading lines with
  | nil =>
    constructor
    · exact List.pairwise_singleton _ _
    · exact List.pairwise_singleton _ _
  | cons hd rest =>
    rw [hmarks] at hsorted hbound
    rcases hd with ⟨t, b⟩
    by_cases hb : b = 0
    · dsimp only
      rw [if_pos hb]
      constructor
      · rw [chaptersFromGo_map_start]
        exact hsorted
      · exact chaptersFromGo_nonoverlap _ _ hsorted hbound
    · dsimp only
      rw [if_neg hb]
      have hsorted2 : List.Pairwise (· < ·)
          (((sourceId, 0) :: (t, b) :: rest).map Prod.snd) := by
        rw [List.map_cons]
        refine List.pairwise_cons.mpr ⟨?_, hsorted⟩
        intro o ho
        rcases List.mem_cons.mp ho with h1 | h1
        · have : o = b := by simpa using h1
          omega
        · have hbpos : 0 < b := Nat.pos_of_ne_zero hb
          have hin : o ∈ ((t, b) :: rest).map Prod.snd := by
            rw [List.map_cons]
            exact List.mem_cons_of_mem _ h1
          rcases List.mem_cons.mp hin with h2 | h2
          · simp at h2
            omega
          · have := (List.pairwise_cons.mp hsorted).1 o h2
            omega
      have hbound2 : ∀ p ∈ (sourceId, 0) :: (t, b) :: rest,
          p.2 ≤ textLen lines := by
        intro p hp
        rcases List.mem_cons.mp hp with h1 | h1
        · rw [h1]
          exact Nat.zero_le _
        · exact hbound p h1
      constructor
      · rw [chaptersFromGo_map_start]
        exact hsorted2
      · exact chaptersFromGo_nonoverlap _ _ hsorted2 hbound2

/-- C6: a document in which no line matches any heading rule yields
exactly one chapter named from the source identifier and spanning the
whole text; `detect` is a total function, so the fallback is a result,
never an error. -/
theorem detectNoMatchFallback (isHeading : String → Bool)
    (sourceId : String) (lines : List String)
    (h : ∀ l ∈ lines, isHeading l = false) :
    detect isHeading sourceId lines
      = [⟨sourceId, 0, textLen lines⟩] := by
  have hmarks : headingMarks isHeading lines = [] := by
    unfold headingMarks
    refine List.filter_eq_nil_iff.mpr ?_
    intro p hp
    have hl : p.1 ∈ lines := (List.of_mem_zip hp).1
    simp [h p.1 hl]
  unfold detect
  rw [hmarks]

theorem detectNoMatchFallbackWitness :
    detect chapterHeadingMatch "pelda_dokumentum.txt"
        ["Ez egy sima bekezdes.", "Nincs benne fejezetcim."]
      = [⟨"pelda_dokumentum.txt", 0,
          textLen ["Ez egy sima bekezdes.", "Nincs benne fejezetcim."]⟩] :=
  detectNoMatchFallback chapterHeadingMatch "pelda_dokumentum.txt"
    ["Ez egy sima bekezdes.", "Nincs benne fejezetcim."]
    (by decide)

/-! ## Small-chapter merge policy

The merge step lives in the absent `document_processor.py` (the design
document records only the 50-word content-validation threshold).
Modelled from the specification, section 3: a chapter with body word
count below the minimum threshold is discarded as a separate chapter and
its text merged into an adjacent one, forward when no preceding chapter
exists, else backward.  A chapter body is modelled as its word list.
-/

/-- Modelled from the spec: a segmented chapter, body as word list. -/
structure SegChapter where
  title : String
  bodyWords : List String
  deriving DecidableEq, Repr

/-- The 50-word minimum from the content-validation rule. -/
def minChapterWords : Nat := 50

/-- Words held by a pending forward-merge chapter. -/
def pendingWords : Option SegChapter → List String
  | some p => p.bodyWords
  | none => []

/-- Total body word count of a chapter list. -/
def totalWords (l : List SegChapter) : Nat :=
  (l.map (fun c => c.bodyWords.length)).sum

/-- Concatenated body words of a chapter list, in order. -/
def wordsOf (l : List SegChapter) : List String :=
  (l.map SegChapter.bodyWords).flatten

/-- Modelled from the spec: the merge walk.  `pending` holds an
under-threshold chapter with no preceding chapter, waiting to merge
forward into the next one; `acc` holds committed chapters in reverse.
An under-threshold chapter with a preceding chapter merges backward. -/
def mergeSmallGo (minW : Nat) :
    Option SegChapter → List SegChapter → List SegChapter →
      List SegChapter
  | some p, acc, [] => (p :: acc).reverse
  | none, acc, [] => acc.reverse
  | pending, acc, c :: rest =>
    let c2 : SegChapter :=
      match pending with
      | some p => ⟨c.title, p.bodyWords ++ c.bodyWords⟩
      | none => c
    if c2.bodyWords.length < minW then
      match acc with
      | [] => mergeSmallGo minW (some c2) [] rest
      | prev :: accRest =>
        mergeSmallGo minW none
          (⟨prev.title, prev.bodyWords ++ c2.bodyWords⟩ :: accRest) rest
    else mergeSmallGo minW none (c2 :: acc) rest

/-- Modelled from the spec: merge all under-threshold chapters. -/
def mergeSmall (minW : Nat) (chapters : List SegChapter) :
    List SegChapter :=
  mergeSmallGo minW none [] chapters

/-! ### Lemmas for C8 -/

lemma mergeSmallGo_wordsOf (minW : Nat) (l : List SegChapter)
    (pending : Option SegChapter) (acc : List SegChapter) :
    wordsOf (mergeSmallGo minW pending acc l)
      = wordsOf acc.reverse ++ pendingWords pending ++ wordsOf l := by
  induction l generalizing pending acc with
  | nil =>
    cases pending with
    | none => simp [mergeSmallGo, wordsOf, pendingWords]
    | some p =>
      simp [mergeSmallGo, wordsOf, pendingWords]
  | cons c rest ih =>
    cases pending with
    | none =>
      rw [mergeSmallGo.eq_def]
      dsimp only
      by_cases hsmall : c.bodyWords.length < minW
      · rw [if_pos hsmall]
        cases acc with
        | nil =>
          rw [ih]
          simp [wordsOf, pendingWords]
        | cons prev accRest =>
          rw [ih]
          simp [wordsOf, pendingWords]
      · rw [if_neg hsmall, ih]
        simp [wordsOf, pendingWords]
    | some p =>
      rw [mergeSmallGo.eq_def]
      dsimp only
      by_cases hsmall : (p.bodyWords ++ c.bodyWords).length < minW
      · rw [if_pos hsmall]
        cases acc with
        | nil =>
          rw [ih]
          simp [wordsOf, pendingWords]
        | cons prev accRest =>
          rw [ih]
          simp [wordsOf, pendingWords]
      · rw [if_neg hsmall, ih]
        simp [wordsOf, pendingWords]

lemma mergeSmallGo_threshold (minW : Nat) (l : List SegChapter)
    (pending : Option SegChapter) (acc : List SegChapter)
    (hacc : ∀ a ∈ acc, minW ≤ a.bodyWords.length)
    (hpend : pending.isSome = true → acc = [])
    (htotal : minW ≤ totalWords acc + (pendingWords pending).length
      + totalWords l) :
    ∀ c ∈ mergeSmallGo minW pending acc l,
      minW ≤ c.bodyWords.length := by
  induction l generalizing pending acc with
  | nil =>
    cases pending with
    | none =>
      intro c hc
      rw [mergeSmallGo] at hc
      exact hacc c (List.mem_reverse.mp hc)
    | some p =>
      intro c hc
      have haccnil : acc = [] := hpend rfl
      subst haccnil
      rw [mergeSmallGo] at hc
      simp at hc
      subst hc
      simpa [totalWords, pendingWords] using htotal
  | cons c rest ih =>
    cases pending with
    | none =>
      rw [mergeSmallGo.eq_def]
      dsimp only
      by_cases hsmall : c.bodyWords.length < minW
      · rw [if_pos hsmall]
        cases acc with
        | nil =>
          refine ih (some c) [] (by intro a ha; cases ha) (fun _ => rfl) ?_
          simpa [totalWords, pendingWords] using htotal
        | cons prev accRest =>
          refine ih none
            (⟨prev.title, prev.bodyWords ++ c.bodyWords⟩ :: accRest) ?_
            (by intro h; cases h) ?_
          · intro a ha
            rcases List.mem_cons.mp ha with h1 | h1
            · subst h1
              have := hacc prev (List.mem_cons_self prev accRest)
              simp only [List.length_append]
              omega
            · exact hacc a (List.mem_cons_of_mem _ h1)
          · simp [totalWords, pendingWords] at htotal ⊢
            omega
      · rw [if_neg hsmall]
        refine ih none (c :: acc) ?_ (by intro h; cases h) ?_
        · intro a ha
          rcases List.mem_cons.mp ha with h1 | h1
          · subst h1
            omega
          · exact hacc a h1
        · simp [totalWords, pendingWords] at htotal ⊢
          omega
    | some p =>
      have haccnil : acc = [] := hpend rfl
      subst haccnil
      rw [mergeSmallGo.eq_def]
      dsimp only
      by_cases hsmall : (p.bodyWords ++ c.bodyWords).length < minW
      · rw [if_pos hsmall]
        refine ih (some ⟨c.title, p.bodyWords ++ c.bodyWords⟩) []
          (by intro a ha; cases ha) (fun _ => rfl) ?_
        simp [totalWords, pendingWords] at htotal ⊢
        omega
      · rw [if_neg hsmall]
        refine ih none [⟨c.title, p.bodyWords ++ c.bodyWords⟩] ?_
          (by intro h; cases h) ?_
        · intro a ha
          rcases List.mem_cons.mp ha with h1 | h1
          · subst h1
            dsimp only
            omega
          · cases h1
        · simp [totalWords, pendingWords] at htotal ⊢
          omega

/-- C8: the merge pass loses no text (the concatenated body words are
unchanged), and once the document holds at least the threshold number of
words, no under-threshold chapter survives as a separate chapter. -/
theorem chapterMergePolicy (chapters : List SegChapter)
    (h : minChapterWords ≤ totalWords chapters) :
    wordsOf (mergeSmall minChapterWords chapters) = wordsOf chapters
    ∧ ∀ c ∈ mergeSmall minChapterWords chapters,
        minChapterWords ≤ c.bodyWords.length := by
  constructor
  · rw [mergeSmall, mergeSmallGo_wordsOf]
    simp [wordsOf, pendingWords]
  · refine mergeSmallGo_threshold minChapterWords chapters none []
      (by intro a ha; cases ha) (by intro hx; cases hx) ?_
    simpa [totalWords, pendingWords] using h

/-- Fixture chapter list for the merge witness. -/
def segFix : List SegChapter :=
  [⟨"Bevezeto", List.replicate 10 "szo"⟩,
   ⟨"Elso fejezet", List.replicate 60 "szo"⟩]

theorem chapterMergePolicyWitness :
    wordsOf (mergeSmall minChapterWords segFix) = wordsOf segFix
    ∧ ∀ c ∈ mergeSmall minChapterWords segFix,
        minChapterWords ≤ c.bodyWords.length :=
  chapterMergePolicy segFix (by decide)
